import Mathlib

/-!
Verification of the hfppl particle core (`hfppl/model.py`) and its two
distribution implementations (`hfppl/distributions/geometric.py`,
`hfppl/distributions/tokencategorical.py`).

Embedding conventions:
* Python floats are modelled over an arbitrary `LinearOrderedField R`
  (instantiated with `ℚ` for executable witnesses and with `ℝ` where
  logarithms matter).  A particle weight can be `float('-inf')`, so
  `weight : WithBot R`, with `⊥` playing the role of `-inf`; addition on
  `WithBot` agrees with IEEE addition on the values that actually occur
  (`⊥ + finite = ⊥`, `⊥ + ⊥ = ⊥`).
* Randomness is shallowly embedded: a `Dist` record carries, in its
  `sample` field, the concrete `(value, log_prob)` pair returned by the
  one call to `sample()` under consideration.
* `Model.__deepcopy__` is about Python object identity, so it is embedded
  against an explicit heap: attributes are names bound to addresses, and
  each address stores a whole value.  Deep-copying an attribute copies its
  value to a fresh address; sharing keeps the address.
-/

namespace HFPPL

/-- The mode string `"sample"` used by `Model.__init__`/`Model.reset`. -/
def sampleMode : String := "sample"

/-- The mode string `"beam"` tested by `Model.sample`. -/
def beamMode : String := "beam"

/-- Particle state: the six fields set by `Model.__init__` in
`hfppl/model.py`.  `weight` lives in `WithBot R` so that the
`float('-inf')` produced by `condition(False)` is representable. -/
structure Model (R : Type) where
  weight : WithBot R
  finished : Bool
  mode : String
  beam_idx : ℤ
  force_eos : Bool
  twist_amount : R
deriving DecidableEq

variable {R : Type} [LinearOrderedField R] {α : Type}

/-- `Model.__init__`: weight 0, not finished, mode `"sample"`, beam index 0,
no forced EOS, twist 0. -/
def Model.init (R : Type) [LinearOrderedField R] : Model R :=
  ⟨0, false, sampleMode, 0, false, 0⟩

/-- `Model.reset`: reassigns the same six fields that `__init__` sets. -/
def Model.reset (m : Model R) : Model R :=
  ⟨0, false, sampleMode, 0, false, 0⟩

/-- `Model.score`: `self.weight += score`.  The argument is a `WithBot R`
because Python passes `float('-inf')` here from `condition`. -/
def Model.score (m : Model R) (s : WithBot R) : Model R :=
  ⟨m.weight + s, m.finished, m.mode, m.beam_idx, m.force_eos, m.twist_amount⟩

/-- `Model.twist`: `self.twist_amount += amt; self.score(amt)`. -/
def Model.twist (m : Model R) (amt : R) : Model R :=
  (Model.mk m.weight m.finished m.mode m.beam_idx m.force_eos
    (m.twist_amount + amt)).score (↑amt)

/-- `Model.untwist`: `self.score(-self.twist_amount); self.twist_amount = 0.0`. -/
def Model.untwist (m : Model R) : Model R :=
  let m' := m.score (↑(-m.twist_amount))
  ⟨m'.weight, m'.finished, m'.mode, m'.beam_idx, m'.force_eos, 0⟩

/-- `Model.finish`: `self.untwist(); self.finished = True`. -/
def Model.finish (m : Model R) : Model R :=
  let m' := m.untwist
  ⟨m'.weight, true, m'.mode, m'.beam_idx, m'.force_eos, m'.twist_amount⟩

/-- `Model.done_stepping`: returns `self.finished`. -/
def Model.done_stepping (m : Model R) : Bool :=
  m.finished

/-- The one exception `Model.step` can raise (`NotImplementedError`). -/
inductive StepError where
  | notImplemented
deriving DecidableEq

/-- `Model.step` of the base class: raises `NotImplementedError` when
`not self.done_stepping()`, and otherwise falls through (returns `None`,
leaving the particle unchanged). -/
def Model.step (m : Model R) : Except StepError (Model R) :=
  if !m.done_stepping then Except.error StepError.notImplemented
  else Except.ok m

/-- `Model.condition`: `if not b: self.score(float('-inf')); self.finish()`. -/
def Model.condition (m : Model R) (b : Bool) : Model R :=
  if !b then (m.score ⊥).finish else m

/-- The distribution capability consumed by the particle layer.  The
`sample` field is the concrete `(value, log_prob)` draw this call
returns (shallow embedding of the random draw). -/
structure Dist (R : Type) (α : Type) where
  sample : α × R
  log_prob : α → R
  argmax : ℤ → α × R

/-- `Model.observe`: `self.score(dist.log_prob(x)); return x`. -/
def Model.observe (m : Model R) (dist : Dist R α) (x : α) : α × Model R :=
  (x, m.score (↑(dist.log_prob x)))

/-- `Model.sample`: beam branch when `self.mode == "beam"`; otherwise draw
from `dist` (discarding its log-probability) when no proposal is given,
else draw `(x, q)` from the proposal and `score(dist.log_prob(x) - q)`. -/
def Model.sample (m : Model R) (dist : Dist R α) (proposal : Option (Dist R α)) :
    α × Model R :=
  if m.mode = beamMode then
    match proposal with
    | some p =>
        let xw := p.argmax m.beam_idx
        (xw.1, m.score (↑(dist.log_prob xw.1)))
    | none =>
        let xw := dist.argmax m.beam_idx
        (xw.1, m.score (↑xw.2))
  else
    match proposal with
    | none => (dist.sample.1, m)
    | some p =>
        (p.sample.1, m.score (↑(dist.log_prob p.sample.1 - p.sample.2)))

/-- `Model.sample_async`: identical weighting to the non-beam branch of
`Model.sample` (the async form has no beam-search special case). -/
def Model.sample_async (m : Model R) (dist : Dist R α)
    (proposal : Option (Dist R α)) : α × Model R :=
  match proposal with
  | none => (dist.sample.1, m)
  | some p =>
      (p.sample.1, m.score (↑(dist.log_prob p.sample.1 - p.sample.2)))

/-- `Geometric.log_prob`: `np.log(p) + np.log(1 - p) * (value - 1)`. -/
noncomputable def Geometric.log_prob (p : ℝ) (value : ℝ) : ℝ :=
  Real.log p + Real.log (1 - p) * (value - 1)

/-- `Geometric.argmax`: returns the bare integer `idx - 1` (the source
returns a single value here, not a `(value, log_prob)` pair). -/
def Geometric.argmax (idx : ℤ) : ℤ :=
  idx - 1

/-- A tokenizer, reduced to the single field the core reads. -/
structure Tokenizer where
  vocab_size : ℕ

/-- A language model, reduced to its tokenizer. -/
structure LM where
  tokenizer : Tokenizer

/-- `log_softmax` from `hfppl/util.py` as used by `TokenCategorical`:
`x_i - log (Σ_j exp x_j)`. -/
noncomputable def log_softmax (logits : List ℝ) : List ℝ :=
  logits.map (fun x => x - Real.log ((logits.map Real.exp).sum))

/-- The state a successfully constructed `TokenCategorical` carries. -/
structure TokenCategoricalState where
  lm : LM
  log_probs : List ℝ

/-- The exception `TokenCategorical.__init__` can raise (`RuntimeError`
on a vocabulary-size mismatch). -/
inductive TCError where
  | vocabMismatch
deriving DecidableEq

/-- `TokenCategorical.__init__`: stores `lm` and `log_softmax(logits)`,
then raises iff `lm.tokenizer.vocab_size != len(logits)`. -/
noncomputable def TokenCategorical.init (lm : LM) (logits : List ℝ) :
    Except TCError TokenCategoricalState :=
  let st : TokenCategoricalState := ⟨lm, log_softmax logits⟩
  if lm.tokenizer.vocab_size ≠ logits.length then Except.error TCError.vocabMismatch
  else Except.ok st

/-- Insert index `i` into an index list kept ascending by the values
`l` assigns to the indices (helper for modelling `torch.argsort`). -/
def insertAsc (l : List ℚ) (i : ℕ) : List ℕ → List ℕ
  | [] => [i]
  | j :: rest =>
      if l.getD i 0 ≤ l.getD j 0 then i :: j :: rest else j :: insertAsc l i rest

/-- `torch.argsort(l)`: indices of `l` sorted so the values are ascending. -/
def argsortAsc (l : List ℚ) : List ℕ :=
  List.foldr (insertAsc l) [] (List.range l.length)

/-- `TokenCategorical.argmax`'s index selection:
`torch.argsort(self.log_probs)[-idx]`.  Python indexing with `-idx` reads
position `0` when `idx = 0` and position `len - idx` when `idx ≥ 1`.
The log-probabilities are taken over `ℚ` so the selection is executable. -/
def TokenCategorical.argmaxIdx (log_probs : List ℚ) (idx : ℕ) : ℕ :=
  let sorted := argsortAsc log_probs
  if idx = 0 then sorted.getD 0 0 else sorted.getD (sorted.length - idx) 0

/-! Heap model for `Model.__deepcopy__`. -/

/-- A heap: a bump allocator (`next`) plus an association list from
addresses to values; `set` and `alloc` prepend, `get` reads the newest
binding. -/
structure PyHeap (V : Type) where
  next : ℕ
  mem : List (ℕ × V)
deriving DecidableEq

/-- Read the value stored at address `a`. -/
def PyHeap.get {V : Type} (h : PyHeap V) (a : ℕ) : Option V :=
  h.mem.lookup a

/-- Overwrite the value at address `a` (in-place mutation of the object
living there). -/
def PyHeap.set {V : Type} (h : PyHeap V) (a : ℕ) (v : V) : PyHeap V :=
  ⟨h.next, (a, v) :: h.mem⟩

/-- Allocate a fresh address holding `v`. -/
def PyHeap.alloc {V : Type} (h : PyHeap V) (v : V) : ℕ × PyHeap V :=
  (h.next, ⟨h.next + 1, (h.next, v) :: h.mem⟩)

/-- A Python object as `__deepcopy__` sees it: its `__dict__`, i.e. a list
of attribute names bound to heap addresses. -/
structure PyObj where
  attrs : List (String × ℕ)
deriving DecidableEq

/-- `getattr`: look the attribute up and dereference it. -/
def PyObj.read {V : Type} (o : PyObj) (k : String) (h : PyHeap V) : Option V :=
  (o.attrs.lookup k).bind h.get

/-- Mutate attribute `k` of `o` in place: overwrite the heap cell its
address points to (a no-op if the attribute does not exist). -/
def PyObj.write {V : Type} (o : PyObj) (k : String) (v : V) (h : PyHeap V) :
    PyHeap V :=
  match o.attrs.lookup k with
  | some a => h.set a v
  | none => h

/-- The loop body of `Model.__deepcopy__`: walk `self.__dict__` in order;
an attribute in `immutable` keeps its address (`setattr(cpy, k, v)` shares
the reference), any other attribute is deep-copied into a fresh cell. -/
def deepcopyAttrs {V : Type} (immutable : List String) :
    List (String × ℕ) → PyHeap V → List (String × ℕ) × PyHeap V
  | [], h => ([], h)
  | (k, a) :: rest, h =>
      if k ∈ immutable then
        let r := deepcopyAttrs immutable rest h
        ((k, a) :: r.1, r.2)
      else
        match h.get a with
        | some v =>
            let ah := h.alloc v
            let r := deepcopyAttrs immutable rest ah.2
            ((k, ah.1) :: r.1, r.2)
        | none =>
            let r := deepcopyAttrs immutable rest h
            ((k, a) :: r.1, r.2)

/-- `Model.__deepcopy__`: build the copy from the source's attributes,
sharing exactly the ones named by `immutable_properties()`. -/
def Model.deepcopy {V : Type} (o : PyObj) (immutable : List String)
    (h : PyHeap V) : PyObj × PyHeap V :=
  let r := deepcopyAttrs immutable o.attrs h
  (⟨r.1⟩, r.2)

/-- Well-formedness of an attribute list against a heap: every address is
below the allocation frontier and actually holds a value (true of every
Python object: `getattr` never dangles). -/
def wfAttrs {V : Type} (attrs : List (String × ℕ)) (h : PyHeap V) : Prop :=
  ∀ p ∈ attrs, p.2 < h.next ∧ (h.get p.2).isSome = true

/-- A concrete rational-valued distribution over `ℕ`, used to instantiate
universally quantified statements in witnesses. -/
def trivDist : Dist ℚ ℕ :=
  ⟨(0, 0), fun _ => 0, fun _ => (0, 0)⟩

/-- A concrete particle whose weight has already been driven to `-inf`. -/
def botModel : Model ℚ :=
  ⟨⊥, true, sampleMode, 0, false, 0⟩

/-- A concrete attribute name, for witnesses. -/
def attrA : String := "history"

/-- Another concrete attribute name, for witnesses. -/
def attrB : String := "context"

/-- A concrete two-attribute object, for witnesses. -/
def demoObj : PyObj :=
  ⟨[(attrA, 0), (attrB, 1)]⟩

/-- A concrete heap backing `demoObj`, for witnesses. -/
def demoHeap : PyHeap ℕ :=
  ⟨2, [(0, 10), (1, 20)]⟩

/-! Theorems. -/

/-- C10: for every particle state, `reset()` restores all six core fields
to their construction-time values, so a reset particle's core state equals
a freshly constructed `Model`'s core state. -/
theorem reset_restores_construction_state (m : Model R) :
    m.reset = Model.init R ∧ m.reset.weight = 0 ∧ m.reset.finished = false ∧
    m.reset.mode = sampleMode ∧ m.reset.beam_idx = 0 ∧
    m.reset.force_eos = false ∧ m.reset.twist_amount = 0 :=
  ⟨rfl, rfl, rfl, rfl, rfl, rfl, rfl⟩

/-- C9: `finish()` is idempotent — after one call `twist_amount = 0` and
`finished = true`, and a second call leaves the whole state (weight,
twist_amount, finished and every other field) exactly as after the first. -/
theorem finish_idempotent (m : Model R) :
    (m.finish).finish = m.finish ∧ (m.finish).twist_amount = 0 ∧
    (m.finish).finished = true := by
  refine ⟨?_, rfl, rfl⟩
  simp [Model.finish, Model.untwist, Model.score]

/-- C5 counterexample: on a finished base-class particle, `step()` does not
raise — it silently returns the particle unchanged, contradicting the claim
that `step()` after `done_stepping()` raises an error. -/
theorem step_after_finished_silently_returns :
    ((Model.init ℚ).finish).done_stepping = true ∧
    ((Model.init ℚ).finish).step = Except.ok ((Model.init ℚ).finish) ∧
    ((Model.init ℚ).finish).step ≠ Except.error StepError.notImplemented := by
  refine ⟨rfl, rfl, fun hc => ?_⟩
  exact Except.noConfusion hc

/-- C5 amended: the base-class `step()` raises `NotImplementedError`
exactly when `done_stepping()` is false (the subclass forgot to override
it); when `done_stepping()` is already true it returns silently without
error. -/
theorem step_raises_only_when_unfinished (m : Model R) :
    (m.done_stepping = true → m.step = Except.ok m) ∧
    (m.done_stepping = false → m.step = Except.error StepError.notImplemented) := by
  refine ⟨fun h => ?_, fun h => ?_⟩ <;>
    simp only [Model.done_stepping] at h <;>
    simp [Model.step, Model.done_stepping, h]

/-- C5 witness: the amended behaviour at two concrete particles — a
finished one steps silently, a fresh one raises. -/
theorem step_raises_only_when_unfinished_witness :
    ((Model.init ℚ).finish).step = Except.ok ((Model.init ℚ).finish) ∧
    (Model.init ℚ).step = Except.error StepError.notImplemented :=
  ⟨(step_raises_only_when_unfinished ((Model.init ℚ).finish)).1 rfl,
   (step_raises_only_when_unfinished (Model.init ℚ)).2 rfl⟩

/-- C2 counterexample: on a particle whose `twist_amount` is already 1,
`twist(2)` followed by `untwist()` does not restore `weight` and
`twist_amount` — `untwist` removes the whole accumulated twist and zeroes
the accumulator, so the prior twist of 1 is lost. -/
theorem twist_untwist_not_reversible :
    ¬ (((((⟨0, false, sampleMode, 0, false, 1⟩ : Model ℚ).twist 2).untwist).weight
          = (⟨0, false, sampleMode, 0, false, 1⟩ : Model ℚ).weight) ∧
       ((((⟨0, false, sampleMode, 0, false, 1⟩ : Model ℚ).twist 2).untwist).twist_amount
          = (⟨0, false, sampleMode, 0, false, 1⟩ : Model ℚ).twist_amount)) := by
  rintro ⟨-, h2⟩
  simp only [Model.twist, Model.untwist, Model.score] at h2
  exact absurd h2 (by norm_num)

/-- C2 amended: `twist(amt)` immediately followed by `untwist()` restores
`weight` and `twist_amount` exactly, provided no twist was already pending
(`twist_amount = 0` before the call — the state in which the spec's own
invariant places every particle outside a twist window). -/
theorem twist_untwist_reversible_of_no_pending_twist (m : Model R) (amt : R)
    (h : m.twist_amount = 0) :
    ((m.twist amt).untwist).weight = m.weight ∧
    ((m.twist amt).untwist).twist_amount = m.twist_amount := by
  constructor
  · simp only [Model.twist, Model.untwist, Model.score, h]
    induction m.weight using WithBot.recBotCoe with
    | bot => simp
    | coe r =>
        rw [← WithBot.coe_add, ← WithBot.coe_add, WithBot.coe_inj]
        ring
  · simp [Model.twist, Model.untwist, Model.score, h]

/-- C2 witness: the amended statement at a fresh particle and `amt = 5`. -/
theorem twist_untwist_reversible_witness :
    (Model.init ℚ).twist_amount = 0 ∧
    ((((Model.init ℚ).twist 5).untwist).weight = (Model.init ℚ).weight ∧
     (((Model.init ℚ).twist 5).untwist).twist_amount = (Model.init ℚ).twist_amount) :=
  ⟨rfl, twist_untwist_reversible_of_no_pending_twist (Model.init ℚ) 5 rfl⟩

/-- C3: `condition(False)` sets `weight` to `-inf` and makes
`done_stepping()` return true; `condition(True)` changes nothing; and on
any particle whose weight is already `-inf`, every further weighting
primitive with a finite argument (`score`, `twist`, `untwist`, `observe`,
`condition`) leaves the weight at `-inf`. -/
theorem condition_false_terminal (m m' : Model R) (a : R) (dist : Dist R α)
    (x : α) (b : Bool) (h : m'.weight = ⊥) :
    (m.condition false).weight = ⊥ ∧
    (m.condition false).done_stepping = true ∧
    m.condition true = m ∧
    (m'.score (↑a)).weight = ⊥ ∧
    (m'.twist a).weight = ⊥ ∧
    (m'.untwist).weight = ⊥ ∧
    ((m'.observe dist x).2).weight = ⊥ ∧
    (m'.condition b).weight = ⊥ := by
  have hb : (m'.condition b).weight = ⊥ := by
    cases b <;>
      simp [Model.condition, Model.finish, Model.untwist, Model.score, h,
        WithBot.add_bot, WithBot.bot_add]
  refine ⟨?_, rfl, rfl, ?_, ?_, ?_, ?_, hb⟩ <;>
    simp [Model.condition, Model.finish, Model.untwist, Model.score,
      Model.twist, Model.observe, h, WithBot.add_bot, WithBot.bot_add]

/-- C3 witness: the statement at concrete particles — a fresh one for the
`condition` parts and `botModel` (weight `-inf`) for the preservation
parts, with `a = 1`, `dist = trivDist`, `x = 0`, `b = true`. -/
theorem condition_false_terminal_witness :
    ((Model.init ℚ).condition false).weight = ⊥ ∧
    ((Model.init ℚ).condition false).done_stepping = true ∧
    (Model.init ℚ).condition true = Model.init ℚ ∧
    (botModel.score (↑(1 : ℚ))).weight = ⊥ ∧
    (botModel.twist 1).weight = ⊥ ∧
    (botModel.untwist).weight = ⊥ ∧
    ((botModel.observe trivDist 0).2).weight = ⊥ ∧
    (botModel.condition true).weight = ⊥ :=
  condition_false_terminal (Model.init ℚ) botModel 1 trivDist 0 true rfl

/-- C1: in sample mode, `sample(dist, proposal)` with a proposal returns
the proposal's draw `x`, adds exactly `dist.log_prob(x) - q` to the weight
(leaving `finished` and `twist_amount` unchanged); `sample_async` with a
proposal has the same value and weight semantics. -/
theorem sample_with_proposal_importance_correction (m : Model R)
    (dist p : Dist R α) (h : m.mode = sampleMode) :
    (m.sample dist (some p)).1 = p.sample.1 ∧
    (m.sample dist (some p)).2.weight
      = m.weight + ↑(dist.log_prob p.sample.1 - p.sample.2) ∧
    (m.sample dist (some p)).2.finished = m.finished ∧
    (m.sample dist (some p)).2.twist_amount = m.twist_amount ∧
    (m.sample_async dist (some p)).1 = p.sample.1 ∧
    (m.sample_async dist (some p)).2.weight
      = m.weight + ↑(dist.log_prob p.sample.1 - p.sample.2) ∧
    (m.sample_async dist (some p)).2.finished = m.finished ∧
    (m.sample_async dist (some p)).2.twist_amount = m.twist_amount := by
  have hmode : ¬ (m.mode = beamMode) := by
    rw [h]
    simp [sampleMode, beamMode]
  simp [Model.sample, Model.sample_async, Model.score, hmode]

/-- C1 witness: the value and weight parts at a fresh particle with
`trivDist` as both target and proposal. -/
theorem sample_with_proposal_witness :
    ((Model.init ℚ).sample trivDist (some trivDist)).1 = trivDist.sample.1 ∧
    ((Model.init ℚ).sample trivDist (some trivDist)).2.weight
      = (Model.init ℚ).weight
        + ↑(trivDist.log_prob trivDist.sample.1 - trivDist.sample.2) :=
  ⟨(sample_with_proposal_importance_correction (Model.init ℚ) trivDist trivDist rfl).1,
   (sample_with_proposal_importance_correction (Model.init ℚ) trivDist trivDist rfl).2.1⟩

/-- C6: `observe(dist, x)` adds exactly `dist.log_prob(x)` to the weight
and returns `x` unchanged; in particular on a fresh particle,
`observe(Geometric(0.5), 3)` leaves the weight at
`log(0.5) + log(0.5) * 2 = log(0.125)`. -/
theorem observe_adds_log_prob (m : Model R) (dist : Dist R α) (x : α)
    (s : ℤ × ℝ) (am : ℤ → ℤ × ℝ) :
    (m.observe dist x).1 = x ∧
    (m.observe dist x).2.weight = m.weight + ↑(dist.log_prob x) ∧
    ((Model.init ℝ).observe
        ⟨s, fun v => Geometric.log_prob (1 / 2) ((v : ℤ) : ℝ), am⟩ (3 : ℤ)).2.weight
      = ↑(Real.log (1 / 2) + Real.log (1 / 2) * 2) ∧
    Real.log (1 / 2) + Real.log (1 / 2) * 2 = Real.log (0.125) := by
  refine ⟨rfl, rfl, ?_, ?_⟩
  · show (0 : WithBot ℝ) + ↑(Geometric.log_prob (1 / 2) (((3 : ℤ) : ℤ) : ℝ))
        = ↑(Real.log (1 / 2) + Real.log (1 / 2) * 2)
    rw [zero_add, WithBot.coe_inj]
    simp only [Geometric.log_prob]
    push_cast
    norm_num
  · have h8 : (0.125 : ℝ) = (1 / 2 : ℝ) ^ 3 := by norm_num
    rw [h8, Real.log_pow]
    push_cast
    ring

/-- C4 (code bug): the `argmax` implementations break the declared
capability contract.  `Geometric.argmax(0)` evaluates to the bare integer
`-1` (not a `(value, log_prob)` pair); the value `-1` is not the most
likely outcome — its formal `log_prob` under `Geometric(0.5)` is
`log 2 > 0`, an impossible log-probability, while every outcome
`n ≥ 1` of the sampler has negative log-probability.  And the
`TokenCategorical` selection `argsort(log_probs)[-idx]` at `idx = 0`
picks the head of the ascending sort — the least probable token — while
`idx = 1` picks the most probable one. -/
theorem argmax_contract_broken :
    Geometric.argmax 0 = -1 ∧
    Geometric.log_prob (1 / 2) (((Geometric.argmax 0) : ℤ) : ℝ) = Real.log 2 ∧
    0 < Real.log 2 ∧
    (∀ n : ℕ, Geometric.log_prob (1 / 2) ((n : ℝ) + 1) < 0) ∧
    TokenCategorical.argmaxIdx [-(2 : ℚ), -1] 0 = 0 ∧
    TokenCategorical.argmaxIdx [-(2 : ℚ), -1] 1 = 1 ∧
    ([-(2 : ℚ), -1].getD 0 0 < [-(2 : ℚ), -1].getD 1 0) := by
  have hlog : Real.log (1 / 2 : ℝ) = -Real.log 2 := by
    rw [show (1 / 2 : ℝ) = 2⁻¹ by norm_num, Real.log_inv]
  have h2 : (0 : ℝ) < Real.log 2 := Real.log_pos (by norm_num)
  refine ⟨by decide, ?_, h2, ?_, by decide, by decide, by decide⟩
  · show Geometric.log_prob (1 / 2) (((-1 : ℤ) : ℤ) : ℝ) = Real.log 2
    simp only [Geometric.log_prob]
    push_cast
    rw [show (1 - (1 / 2 : ℝ)) = 1 / 2 by norm_num, hlog]
    ring
  · intro n
    have hn : (0 : ℝ) ≤ (n : ℝ) := Nat.cast_nonneg n
    simp only [Geometric.log_prob]
    rw [show (1 - (1 / 2 : ℝ)) = 1 / 2 by norm_num, hlog]
    nlinarith

/-- C8: constructing a `TokenCategorical` raises exactly when the logits
length differs from the tokenizer's vocabulary size, and succeeds (no
error, at construction time) exactly when they match. -/
theorem tokencategorical_init_checks_length (lm : LM) (logits : List ℝ) :
    ((∃ st, TokenCategorical.init lm logits = Except.ok st) ↔
      lm.tokenizer.vocab_size = logits.length) ∧
    (TokenCategorical.init lm logits = Except.error TCError.vocabMismatch ↔
      lm.tokenizer.vocab_size ≠ logits.length) := by
  unfold TokenCategorical.init
  by_cases hv : lm.tokenizer.vocab_size = logits.length <;> simp [hv]

/-- `lookup` only returns pairs present in the association list. -/
theorem lookup_mem {β : Type} {l : List (String × β)} {k : String} {b : β}
    (hlk : l.lookup k = some b) : (k, b) ∈ l := by
  induction l with
  | nil => simp at hlk
  | cons p rest ih =>
      obtain ⟨k', b'⟩ := p
      by_cases hk : k = k'
      · subst hk
        simp only [List.lookup_cons, beq_self_eq_true, Option.some.injEq] at hlk
        subst hlk
        exact List.mem_cons_self _ _
      · have hbeq : (k == k') = false := beq_eq_false_iff_ne.mpr hk
        simp only [List.lookup_cons, hbeq] at hlk
        exact List.mem_cons_of_mem _ (ih hlk)

/-- Overwriting one heap cell does not change any other cell. -/
theorem PyHeap.get_set_ne {V : Type} (h : PyHeap V) (a a' : ℕ) (v : V)
    (hne : a' ≠ a) : (h.set a v).get a' = h.get a' := by
  have hbeq : (a' == a) = false := beq_eq_false_iff_ne.mpr hne
  simp [PyHeap.get, PyHeap.set, List.lookup_cons, hbeq]

/-- Allocation does not change the cells below the allocation frontier. -/
theorem PyHeap.get_alloc_lt {V : Type} (h : PyHeap V) (v : V) (a : ℕ)
    (ha : a < h.next) : (h.alloc v).2.get a = h.get a := by
  have hbeq : (a == h.next) = false := beq_eq_false_iff_ne.mpr (Nat.ne_of_lt ha)
  simp [PyHeap.get, PyHeap.alloc, List.lookup_cons, hbeq]

/-- The freshly allocated cell holds the allocated value. -/
theorem PyHeap.get_alloc_self {V : Type} (h : PyHeap V) (v : V) :
    (h.alloc v).2.get h.next = some v := by
  simp [PyHeap.get, PyHeap.alloc, List.lookup_cons]

/-- Unfolding `deepcopyAttrs` on a shared (immutable) attribute. -/
theorem deepcopyAttrs_cons_imm {V : Type} (immutable : List String) (k : String)
    (a : ℕ) (rest : List (String × ℕ)) (h : PyHeap V) (hk : k ∈ immutable) :
    deepcopyAttrs immutable ((k, a) :: rest) h
      = ((k, a) :: (deepcopyAttrs immutable rest h).1,
         (deepcopyAttrs immutable rest h).2) := by
  simp [deepcopyAttrs, hk]

/-- Unfolding `deepcopyAttrs` on a deep-copied attribute. -/
theorem deepcopyAttrs_cons_copy {V : Type} (immutable : List String) (k : String)
    (a : ℕ) (rest : List (String × ℕ)) (h : PyHeap V) (v : V)
    (hk : k ∉ immutable) (hv : h.get a = some v) :
    deepcopyAttrs immutable ((k, a) :: rest) h
      = ((k, h.next) :: (deepcopyAttrs immutable rest (h.alloc v).2).1,
         (deepcopyAttrs immutable rest (h.alloc v).2).2) := by
  simp [deepcopyAttrs, hk, hv, PyHeap.alloc]

/-- Conjoin an elementwise property of the left list onto a `Forall₂`. -/
theorem forall₂_with_mem {γ δ : Type} {P : γ → Prop} {R : γ → δ → Prop} :
    ∀ {l₁ : List γ} {l₂ : List δ}, List.Forall₂ R l₁ l₂ → (∀ x ∈ l₁, P x) →
      List.Forall₂ (fun x y => P x ∧ R x y) l₁ l₂ := by
  intro l₁ l₂ hR
  induction hR with
  | nil => exact fun _ => List.Forall₂.nil
  | cons hpq htail ih =>
      intro hP
      exact List.Forall₂.cons ⟨hP _ (List.mem_cons_self _ _), hpq⟩
        (ih fun x hx => hP x (List.mem_cons_of_mem _ hx))

/-- Main invariant of `deepcopyAttrs`: the allocation frontier only grows,
cells below the old frontier are untouched, and positionwise every
attribute either keeps its address (shared, key in `immutable`) or moves
to a fresh address above the old frontier holding the same value. -/
theorem deepcopyAttrs_spec {V : Type} (immutable : List String) :
    ∀ (attrs : List (String × ℕ)) (h : PyHeap V), wfAttrs attrs h →
      h.next ≤ (deepcopyAttrs immutable attrs h).2.next ∧
      (∀ a, a < h.next → (deepcopyAttrs immutable attrs h).2.get a = h.get a) ∧
      List.Forall₂ (fun p q => p.1 = q.1 ∧
          ((p.1 ∈ immutable ∧ q.2 = p.2) ∨
           (p.1 ∉ immutable ∧ h.next ≤ q.2 ∧
            q.2 < (deepcopyAttrs immutable attrs h).2.next ∧
            (deepcopyAttrs immutable attrs h).2.get q.2 = h.get p.2)))
        attrs (deepcopyAttrs immutable attrs h).1 := by
  intro attrs
  induction attrs with
  | nil =>
      intro h hwf
      exact ⟨le_refl _, fun a _ => rfl, List.Forall₂.nil⟩
  | cons pa rest ih =>
      intro h hwf
      obtain ⟨k, a⟩ := pa
      have hhead := hwf (k, a) (List.mem_cons_self _ _)
      have hwfr : wfAttrs rest h := fun p hp => hwf p (List.mem_cons_of_mem _ hp)
      by_cases hk : k ∈ immutable
      · rw [deepcopyAttrs_cons_imm immutable k a rest h hk]
        obtain ⟨ih1, ih2, ih3⟩ := ih h hwfr
        exact ⟨ih1, ih2, List.Forall₂.cons ⟨rfl, Or.inl ⟨hk, rfl⟩⟩ ih3⟩
      · obtain ⟨v, hv⟩ := Option.isSome_iff_exists.mp hhead.2
        rw [deepcopyAttrs_cons_copy immutable k a rest h v hk hv]
        have hwfr1 : wfAttrs rest (h.alloc v).2 := by
          intro p hp
          refine ⟨Nat.lt_succ_of_lt (hwfr p hp).1, ?_⟩
          rw [PyHeap.get_alloc_lt h v p.2 (hwfr p hp).1]
          exact (hwfr p hp).2
        obtain ⟨ih1, ih2, ih3⟩ := ih (h.alloc v).2 hwfr1
        have hle : h.next ≤ (deepcopyAttrs immutable rest (h.alloc v).2).2.next :=
          le_trans (Nat.le_succ _) ih1
        refine ⟨hle, ?_, ?_⟩
        · intro a' ha'
          have e1 := ih2 a' (Nat.lt_succ_of_lt ha')
          rw [e1, PyHeap.get_alloc_lt h v a' ha']
        · refine List.Forall₂.cons ⟨rfl, Or.inr ⟨hk, le_refl _, ?_, ?_⟩⟩ ?_
          · exact lt_of_lt_of_le (Nat.lt_succ_self _) ih1
          · have e2 := ih2 h.next (Nat.lt_succ_self _)
            rw [e2, PyHeap.get_alloc_self h v, hv]
          · refine (forall₂_with_mem ih3 (fun p hp => hwfr p hp)).imp ?_
            rintro p q ⟨hwfp, hk1, hor⟩
            refine ⟨hk1, ?_⟩
            rcases hor with ⟨hin, heq⟩ | ⟨hnin, hle2, hlt2, hget2⟩
            · exact Or.inl ⟨hin, heq⟩
            · refine Or.inr ⟨hnin, le_trans (Nat.le_succ _) hle2, hlt2, ?_⟩
              rw [hget2]
              exact PyHeap.get_alloc_lt h v p.2 hwfp.1

/-- Align the two `lookup`s of a `Forall₂`-related pair of association
lists whose relation preserves keys. -/
theorem lookup_forall₂ {β : Type} {Rel : (String × β) → (String × β) → Prop} :
    ∀ {l₁ l₂ : List (String × β)}, List.Forall₂ Rel l₁ l₂ →
      (∀ p q, Rel p q → p.1 = q.1) → ∀ k : String,
      (l₁.lookup k = none ∧ l₂.lookup k = none) ∨
      (∃ b₁ b₂, l₁.lookup k = some b₁ ∧ l₂.lookup k = some b₂ ∧
        Rel (k, b₁) (k, b₂)) := by
  intro l₁ l₂ hl
  induction hl with
  | nil => exact fun _ _ => Or.inl ⟨rfl, rfl⟩
  | @cons p q l₁' l₂' hpq htail ih =>
      intro hkeys k
      obtain ⟨k₁, b₁⟩ := p
      obtain ⟨k₂, b₂⟩ := q
      have hk12 : k₁ = k₂ := hkeys _ _ hpq
      subst hk12
      by_cases hkk : k = k₁
      · subst hkk
        exact Or.inr ⟨b₁, b₂, by simp [List.lookup_cons], by simp [List.lookup_cons], hpq⟩
      · have hbeq : (k == k₁) = false := beq_eq_false_iff_ne.mpr hkk
        rcases ih hkeys k with ⟨h1, h2⟩ | ⟨c₁, c₂, h1, h2, hrel⟩
        · exact Or.inl ⟨by simp [List.lookup_cons, hbeq, h1],
            by simp [List.lookup_cons, hbeq, h2]⟩
        · exact Or.inr ⟨c₁, c₂, by simp [List.lookup_cons, hbeq, h1],
            by simp [List.lookup_cons, hbeq, h2], hrel⟩

/-- C7: the clone produced by `__deepcopy__` keeps (shares) the address of
exactly the attributes named in `immutable_properties()` and moves every
other attribute to a distinct fresh address holding an equal value; as a
consequence, when no properties are immutable, clone and original read
identically right after forking, and mutating any attribute of one leaves
every attribute of the other unchanged. -/
theorem deepcopy_clone_independence {V : Type} (o : PyObj) (h : PyHeap V)
    (immutable : List String) (hwf : wfAttrs o.attrs h) :
    List.Forall₂ (fun p q => p.1 = q.1 ∧
        (p.1 ∈ immutable → q.2 = p.2) ∧
        (p.1 ∉ immutable → q.2 ≠ p.2 ∧
          (Model.deepcopy o immutable h).2.get q.2 = h.get p.2))
      o.attrs (Model.deepcopy o immutable h).1.attrs ∧
    (immutable = [] → ∀ (k : String) (v : V) (k' : String),
      (Model.deepcopy o immutable h).1.read k' (Model.deepcopy o immutable h).2
        = o.read k' h ∧
      o.read k' (PyObj.write (Model.deepcopy o immutable h).1 k v
          (Model.deepcopy o immutable h).2) = o.read k' h ∧
      (Model.deepcopy o immutable h).1.read k'
          (o.write k v (Model.deepcopy o immutable h).2)
        = (Model.deepcopy o immutable h).1.read k'
            (Model.deepcopy o immutable h).2) := by
  obtain ⟨hle, hpres, hrel⟩ := deepcopyAttrs_spec immutable o.attrs h hwf
  constructor
  · refine (forall₂_with_mem hrel (fun p hp => hwf p hp)).imp ?_
    rintro p q ⟨hwfp, hk1, hor⟩
    refine ⟨hk1, ?_, ?_⟩
    · intro hin
      rcases hor with ⟨_, heq⟩ | ⟨hnin, _⟩
      · exact heq
      · exact absurd hin hnin
    · intro hnin
      rcases hor with ⟨hin, _⟩ | ⟨_, hle2, _, hget2⟩
      · exact absurd hin hnin
      · exact ⟨ne_of_gt (lt_of_lt_of_le hwfp.1 hle2), hget2⟩
  · rintro rfl k v k'
    have hF2 : List.Forall₂ (fun p q : String × ℕ => p.1 = q.1 ∧ h.next ≤ q.2 ∧
        (Model.deepcopy o [] h).2.get q.2 = h.get p.2)
        o.attrs (Model.deepcopy o [] h).1.attrs := by
      refine hrel.imp ?_
      rintro p q ⟨hk1, hor⟩
      rcases hor with ⟨hin, _⟩ | ⟨_, hle2, _, hget2⟩
      · exact absurd hin (List.not_mem_nil _)
      · exact ⟨hk1, hle2, hget2⟩
    have hkeys : ∀ p q : String × ℕ,
        (p.1 = q.1 ∧ h.next ≤ q.2 ∧
          (Model.deepcopy o [] h).2.get q.2 = h.get p.2) → p.1 = q.1 :=
      fun p q hr => hr.1
    have hreadH : ∀ k'' : String,
        o.read k'' (Model.deepcopy o [] h).2 = o.read k'' h := by
      intro k''
      unfold PyObj.read
      cases hlk : o.attrs.lookup k'' with
      | none => rfl
      | some a₁ => exact hpres a₁ (hwf _ (lookup_mem hlk)).1
    refine ⟨?_, ?_, ?_⟩
    · rcases lookup_forall₂ hF2 hkeys k' with ⟨hn1, hn2⟩ | ⟨b₁, b₂, h1, h2, hrelk⟩
      · unfold PyObj.read
        rw [hn1, hn2]
        rfl
      · unfold PyObj.read
        rw [h1, h2]
        exact hrelk.2.2
    · rcases lookup_forall₂ hF2 hkeys k with ⟨hn1, hn2⟩ | ⟨b₁, b₂, h1, h2, hrelk⟩
      · unfold PyObj.write
        rw [hn2]
        exact hreadH k'
      · unfold PyObj.write
        rw [h2]
        unfold PyObj.read
        cases hlk' : o.attrs.lookup k' with
        | none => rfl
        | some a₁ =>
            have ha₁ : a₁ < h.next := (hwf _ (lookup_mem hlk')).1
            have hne : a₁ ≠ b₂ := Nat.ne_of_lt (lt_of_lt_of_le ha₁ hrelk.2.1)
            show ((Model.deepcopy o [] h).2.set b₂ v).get a₁ = h.get a₁
            rw [PyHeap.get_set_ne (Model.deepcopy o [] h).2 b₂ a₁ v hne]
            exact hpres a₁ ha₁
    · unfold PyObj.write
      cases hlk : o.attrs.lookup k with
      | none => rfl
      | some a₁ =>
          have ha₁ : a₁ < h.next := (hwf _ (lookup_mem hlk)).1
          rcases lookup_forall₂ hF2 hkeys k' with ⟨hn1, hn2⟩ | ⟨b₁, b₂, h1, h2, hrelk⟩
          · unfold PyObj.read
            rw [hn2]
            rfl
          · unfold PyObj.read
            rw [h2]
            show ((Model.deepcopy o [] h).2.set a₁ v).get b₂
              = (Model.deepcopy o [] h).2.get b₂
            exact PyHeap.get_set_ne (Model.deepcopy o [] h).2 a₁ b₂ v
              (ne_of_gt (lt_of_lt_of_le ha₁ hrelk.2.1))

/-- C7 witness: a two-attribute object with no immutable properties —
writing to the clone's first attribute leaves the original's read intact,
and writing to the original leaves the clone's reads intact. -/
theorem deepcopy_clone_independence_witness :
    demoObj.read attrA (PyObj.write (Model.deepcopy demoObj [] demoHeap).1 attrA 99
        (Model.deepcopy demoObj [] demoHeap).2)
      = demoObj.read attrA demoHeap ∧
    (Model.deepcopy demoObj [] demoHeap).1.read attrB
        (demoObj.write attrA 99 (Model.deepcopy demoObj [] demoHeap).2)
      = (Model.deepcopy demoObj [] demoHeap).1.read attrB
          (Model.deepcopy demoObj [] demoHeap).2 :=
  ⟨((deepcopy_clone_independence demoObj demoHeap [] (by unfold wfAttrs; decide)).2
      rfl attrA 99 attrA).2.1,
   ((deepcopy_clone_independence demoObj demoHeap [] (by unfold wfAttrs; decide)).2
      rfl attrA 99 attrB).2.2⟩

end HFPPL
